import Mathlib

/-!
Verification of the YOLO barcode-scanner detection pipeline.

The definitions below are a shallow embedding of the JavaScript source:

* `src/src/yoloWorker.js` — the inference worker.  The second variant in that
  file (function `processYOLOv8Output` taking the output object with its
  `dims`, together with `nms` and `iou` over records with fields
  x, y, w, h, confidence) is embedded here.  JavaScript numbers are modelled
  by the rationals; every arithmetic operation used by the code
  (add, sub, mul, div, max, min, comparisons) is exact on the inputs the
  claims are about.  Division by zero yields 0 in this model where
  JavaScript yields NaN; both values are distinct from every ordinary
  numeric result, and no theorem below depends on the difference except
  where a hypothesis rules the degenerate case out.
* `src/src/App.jsx` — the main-thread pipeline (detection loop, decodeROI,
  handleSuccess).
-/

/-- The fixed model input size, `YOLO_INPUT_SIZE = 640` in the source. -/
def YOLO_INPUT_SIZE : ℚ := 640

/-- A detection record as produced by the worker:
`{ x, y, w, h, confidence }` (second worker variant). -/
structure Det where
  x : ℚ
  y : ℚ
  w : ℚ
  h : ℚ
  confidence : ℚ
deriving DecidableEq, Repr

/-- The orientation information computed at the top of `processYOLOv8Output`
from the declared output dims. -/
structure Layout where
  numDetections : ℕ
  numFeatures : ℕ
  isTransposed : Bool
deriving DecidableEq, Repr

/-- The dims comparison of the source: `if (dims[1] > dims[2]) { numDetections = dims[1]; numFeatures = dims[2];
isTransposed = true } else { numDetections = dims[2]; numFeatures = dims[1];
isTransposed = false }`. -/
def layoutOf (d1 d2 : ℕ) : Layout :=
  if d1 > d2 then ⟨d1, d2, true⟩ else ⟨d2, d1, false⟩

/-- Reading feature `f` of slot `i` from the flat output buffer, exactly as
every indexing expression in `processYOLOv8Output` does:
`isTransposed ? data[i * numFeatures + f] : data[numDetections * f + i]`. -/
def featAt (data : ℕ → ℚ) (L : Layout) (i f : ℕ) : ℚ :=
  if L.isTransposed then data (i * L.numFeatures + f)
  else data (L.numDetections * f + i)

/-- The inner loop of `processYOLOv8Output`: `maxScore` starts at 0 and is
replaced by `score` whenever `score > maxScore`, for
`c = 0 .. numClasses - 1`, reading `data` at feature `c + 4`. -/
def maxScore (data : ℕ → ℚ) (L : Layout) (numClasses i : ℕ) : ℚ :=
  (List.range numClasses).foldl
    (fun m c => if featAt data L i (c + 4) > m then featAt data L i (c + 4) else m) 0

/-- One iteration of the slot loop of `processYOLOv8Output`: compute
`maxScore` over `numClasses = numFeatures - 4` classes; if it exceeds
`threshold`, build the detection record from the four box features,
converting center form to corner form and scaling by `width / 640`
resp. `height / 640`; otherwise produce nothing.  The source binds
`maxScore` once; the pure expression is simply repeated here. -/
def decodeSlot (data : ℕ → ℚ) (L : Layout) (width height threshold : ℚ)
    (i : ℕ) : Option Det :=
  if maxScore data L (L.numFeatures - 4) i > threshold then
    some { x := (featAt data L i 0 - featAt data L i 2 / 2) * (width / YOLO_INPUT_SIZE)
           y := (featAt data L i 1 - featAt data L i 3 / 2) * (height / YOLO_INPUT_SIZE)
           w := featAt data L i 2 * (width / YOLO_INPUT_SIZE)
           h := featAt data L i 3 * (height / YOLO_INPUT_SIZE)
           confidence := maxScore data L (L.numFeatures - 4) i }
  else none

/-- The `iou` function of the worker (second variant), inlining its `let`
bindings: intersection area over union area of two axis-aligned boxes. -/
def iou (a b : Det) : ℚ :=
  (max 0 (min (a.x + a.w) (b.x + b.w) - max a.x b.x) *
    max 0 (min (a.y + a.h) (b.y + b.h) - max a.y b.y)) /
  (a.w * a.h + b.w * b.h -
    max 0 (min (a.x + a.w) (b.x + b.w) - max a.x b.x) *
      max 0 (min (a.y + a.h) (b.y + b.h) - max a.y b.y))

/-- The greedy suppression loop of `nms`: keep the first box, drop every
later box whose IoU with it exceeds `threshold`
(`if (iou(boxes[i], boxes[j]) > threshold) suppressed.add(j)`), recurse on
the survivors. -/
def greedy (threshold : ℚ) : List Det → List Det
  | [] => []
  | x :: xs =>
      x :: greedy threshold (xs.filter fun y => decide (iou x y ≤ threshold))
termination_by l => l.length
decreasing_by
  simp only [List.length_cons]
  exact Nat.lt_succ_of_le (List.length_filter_le _ xs)

/-- The sort performed by `boxes.sort((a, b) => b.confidence - a.confidence)`:
a stable sort by descending confidence.  JavaScript `Array.prototype.sort`
is stable, and a stable sort by a key is uniquely determined, so insertion
sort is an exact model. -/
def sortDet (l : List Det) : List Det :=
  l.insertionSort (fun a b => b.confidence ≤ a.confidence)

/-- The function `nms(boxes, threshold)`: sort by descending confidence,
then greedily suppress. -/
def nms (boxes : List Det) (threshold : ℚ) : List Det :=
  greedy threshold (sortDet boxes)

/-- The slot loop of `processYOLOv8Output` before NMS: every slot index in
order, kept iff its max class score exceeds the threshold. -/
def candidates (data : ℕ → ℚ) (L : Layout) (width height threshold : ℚ) : List Det :=
  (List.range L.numDetections).filterMap (decodeSlot data L width height threshold)

/-- The function `processYOLOv8Output(outputsObj, width, height, threshold)`
applied to an output
buffer `data` with declared dims `[d0, d1, d2]` (only `d1` and `d2` are
consulted): select the layout from the dims, decode every slot, and finish
with `nms(detections, 0.45)`. -/
def processYOLOv8Output (data : ℕ → ℚ) (d1 d2 : ℕ)
    (width height threshold : ℚ) : List Det :=
  nms (candidates data (layoutOf d1 d2) width height threshold) (45 / 100)


/-- The crop rectangle computed by `decodeROI` in `src/src/App.jsx`
(padding 30 there; 40 and 50 in the sibling variants, so the padding is a
parameter here):
`bx = Math.max(0, x - padding); by0 = Math.max(0, y - padding);
bw = Math.min(videoWidth - bx, w + padding * 2);
bh = Math.min(videoHeight - by0, h + padding * 2)`.
The source calls the second field `by`, which is a reserved word here. -/
structure CropRect where
  bx : ℚ
  by0 : ℚ
  bw : ℚ
  bh : ℚ
deriving DecidableEq, Repr

/-- The crop-rectangle computation of `decodeROI`, for a detection box
`(x, y, w, h)`, padding, and frame size `videoWidth`, `videoHeight`. -/
def decodeROI (x y w h padding videoWidth videoHeight : ℚ) : CropRect :=
  { bx := max 0 (x - padding)
    by0 := max 0 (y - padding)
    bw := min (videoWidth - max 0 (x - padding)) (w + padding * 2)
    bh := min (videoHeight - max 0 (y - padding)) (h + padding * 2) }

/-- The single-entry dedup cache `lastScannedCode.current = { code, time }`
of `src/src/App.jsx`; it starts with the empty string as code and
time 0. -/
structure ScanState where
  code : String
  time : ℤ
deriving DecidableEq, Repr

/-- The function `handleSuccess(code)` at instant `now`, restricted to its
dedup decision:
`if (code === lastScannedCode.current.code &&
(now - lastScannedCode.current.time < 3000)) return;` then
`lastScannedCode.current = { code, time: now }`.  The result is
(accepted, new cache state); the cache is written only on accept. -/
def handleSuccess (code : String) (now : ℤ) (s : ScanState) : Bool × ScanState :=
  if code = s.code ∧ now - s.time < 3000 then (false, s)
  else (true, { code := code, time := now })

/-- Events of the detection loop in `startDetectionLoop`
(`src/src/App.jsx`): a timer tick runs `processFrame`, whose submission
guard is only `video.readyState === video.HAVE_ENOUGH_DATA` (modelled by
the `ready` flag); a `response` is the worker posting back the result of
one submitted inference. -/
inductive LoopEvent where
  | tick (ready : Bool)
  | response
deriving DecidableEq, Repr

/-- State transition of the loop on one event, tracking the number of
submitted-but-unanswered inference requests.  The tick body of
`processFrame` posts an INFER message whenever the video is ready; there
is no check of any outstanding-inference flag in the source. -/
def loopStep (s : ℕ) : LoopEvent → ℕ
  | LoopEvent.tick ready => if ready then s + 1 else s
  | LoopEvent.response => s - 1

/-- Number of outstanding inference requests after a sequence of loop
events, starting from none. -/
def outstandingAfter (events : List LoopEvent) : ℕ :=
  events.foldl loopStep 0

/-- Messages the worker posts back to the main thread
(`self.postMessage`).  `console.log` and `console.warn` calls are not
posted messages and do not appear here; the `log` helper of the second
worker variant does post a LOG message, so it does. -/
inductive WorkerOut where
  | modelLoaded
  | inferenceResult
  | error
  | log
deriving DecidableEq, Repr

/-- Observable effect of one `onmessage` invocation: whether
`session.run` was invoked, and the list of messages posted back. -/
structure WorkerEffects where
  ran : Bool
  posts : List WorkerOut
deriving DecidableEq, Repr

/-- The INFER branch of `self.onmessage` in the first worker variant of
`src/src/yoloWorker.js` (same structure in `src/unnamed/part_004`):
`if (!session) return;` then run the session and post INFERENCE_RESULT,
or post ERROR if the run throws.  `sessionLoaded` abstracts `session`
being set; `runOk` abstracts whether `session.run` succeeds. -/
def onInferMsg (sessionLoaded runOk : Bool) : WorkerEffects :=
  if !sessionLoaded then ⟨false, []⟩
  else if runOk then ⟨true, [WorkerOut.inferenceResult]⟩
  else ⟨true, [WorkerOut.error]⟩

/-- The FRAME branch of `self.onmessage` in the second worker variant:
`if (!session) return;` then run the session and post INFERENCE_RESULT,
or post a LOG message if the run throws (its catch block only calls
`log(...)`). -/
def onFrameMsg (sessionLoaded runOk : Bool) : WorkerEffects :=
  if !sessionLoaded then ⟨false, []⟩
  else if runOk then ⟨true, [WorkerOut.inferenceResult]⟩
  else ⟨true, [WorkerOut.log]⟩

/-- Disjointness of two boxes: the intersection rectangle computed by `iou`
is empty (one of its side lengths is not positive). -/
def disjointBoxes (a b : Det) : Prop :=
  min (a.x + a.w) (b.x + b.w) ≤ max a.x b.x ∨
    min (a.y + a.h) (b.y + b.h) ≤ max a.y b.y

instance : DecidablePred fun p : Det × Det => disjointBoxes p.1 p.2 := by
  intro p
  unfold disjointBoxes
  infer_instance


/-- The comparison relation of the sort in `nms`: descending confidence. -/
def confGe (a b : Det) : Prop := b.confidence ≤ a.confidence

instance : DecidableRel confGe := fun a b =>
  inferInstanceAs (Decidable (b.confidence ≤ a.confidence))

instance : IsTotal Det confGe := ⟨fun a b => (le_total b.confidence a.confidence)⟩

instance : IsTrans Det confGe := ⟨fun _ _ _ h1 h2 => le_trans h2 h1⟩

/-- Output buffer realizing the scenario of claim C2: dims [1, 5, 8400]
(one class, non-transposed layout, so feature f of slot i lives at index
8400 * f + i).  Slot 0 carries cx 320, cy 320, w 100, h 60 and class
score 9/10; every other entry of the buffer is 0, so every other slot has
score 0, at or below the threshold 1/4. -/
def c2Data : ℕ → ℚ := fun n =>
  if n = 0 then 320 else if n = 8400 then 320 else if n = 16800 then 100
  else if n = 25200 then 60 else if n = 33600 then 9 / 10 else 0

/-- The single detection the C2 scenario expects: corner box
(540, 326.25, 200, 67.5) at confidence 0.9. -/
def c2Det : Det := ⟨540, 1305 / 4, 200, 135 / 2, 9 / 10⟩

/-- Output buffer with dims [1, 5, 6] (one class, non-transposed, six
slots): slot 0 carries cx 0, cy 0, w 100, h 60 and class score 9/10;
everything else is 0.  Its decoded corner box starts at x = -50, left of
the frame. -/
def negData : ℕ → ℚ := fun n =>
  if n = 12 then 100 else if n = 18 then 60 else if n = 24 then 9 / 10 else 0

/-- The single detection decoded from `negData` on a 640 by 640 frame. -/
def negDet : Det := ⟨-50, -30, 100, 60, 9 / 10⟩

theorem sortDet_eq (l : List Det) : sortDet l = l.insertionSort confGe := rfl

theorem greedy_nil (t : ℚ) : greedy t [] = [] := by
  simp [greedy]

theorem greedy_cons (t : ℚ) (x : Det) (xs : List Det) :
    greedy t (x :: xs) =
      x :: greedy t (xs.filter fun y => decide (iou x y ≤ t)) := by
  rw [greedy]

theorem greedy_sublist (t : ℚ) (l : List Det) : List.Sublist (greedy t l) l := by
  suffices h : ∀ n (l : List Det), l.length = n → List.Sublist (greedy t l) l from
    h l.length l rfl
  intro n
  induction n using Nat.strong_induction_on with
  | _ n ih =>
    intro l hn
    match l with
    | [] => simp [greedy_nil]
    | x :: xs =>
      rw [greedy_cons]
      refine List.Sublist.cons₂ x ?_
      have hlen : (xs.filter fun y => decide (iou x y ≤ t)).length < n := by
        have := List.length_filter_le (fun y => decide (iou x y ≤ t)) xs
        simp only [List.length_cons] at hn
        omega
      exact (ih _ hlen _ rfl).trans (List.filter_sublist xs)

theorem greedy_pairwise (t : ℚ) (l : List Det) :
    (greedy t l).Pairwise fun a b => iou a b ≤ t := by
  suffices h : ∀ n (l : List Det), l.length = n →
      (greedy t l).Pairwise fun a b => iou a b ≤ t from h l.length l rfl
  intro n
  induction n using Nat.strong_induction_on with
  | _ n ih =>
    intro l hn
    match l with
    | [] => simp [greedy_nil]
    | x :: xs =>
      rw [greedy_cons]
      have hlen : (xs.filter fun y => decide (iou x y ≤ t)).length < n := by
        have := List.length_filter_le (fun y => decide (iou x y ≤ t)) xs
        simp only [List.length_cons] at hn
        omega
      refine List.pairwise_cons.mpr ⟨?_, ih _ hlen _ rfl⟩
      intro b hb
      have hmem : b ∈ xs.filter fun y => decide (iou x y ≤ t) :=
        (greedy_sublist t _).subset hb
      have := List.of_mem_filter hmem
      simpa using this

theorem greedy_of_pairwise (t : ℚ) (l : List Det)
    (h : l.Pairwise fun a b => iou a b ≤ t) : greedy t l = l := by
  induction l with
  | nil => exact greedy_nil t
  | cons x xs ih =>
    rw [greedy_cons]
    rw [List.pairwise_cons] at h
    rw [List.filter_eq_self.mpr fun y hy => by simpa using h.1 y hy]
    rw [ih h.2]

theorem sortDet_sorted (l : List Det) : List.Sorted confGe (sortDet l) :=
  List.sorted_insertionSort confGe l

theorem sortDet_of_sorted {l : List Det} (h : List.Sorted confGe l) :
    sortDet l = l :=
  List.Sorted.insertionSort_eq h

theorem iou_comm (a b : Det) : iou a b = iou b a := by
  unfold iou
  rw [max_comm a.x b.x, max_comm a.y b.y, min_comm (a.x + a.w) (b.x + b.w),
    min_comm (a.y + a.h) (b.y + b.h), add_comm (a.w * a.h) (b.w * b.h)]

theorem nms_sorted (boxes : List Det) (t : ℚ) :
    List.Sorted confGe (nms boxes t) :=
  List.Pairwise.sublist (greedy_sublist t (sortDet boxes)) (sortDet_sorted boxes)

theorem nms_pairwise (boxes : List Det) (t : ℚ) :
    (nms boxes t).Pairwise fun a b => iou a b ≤ t :=
  greedy_pairwise t (sortDet boxes)

theorem nms_idem (boxes : List Det) (t : ℚ) :
    nms (nms boxes t) t = nms boxes t := by
  show greedy t (sortDet (nms boxes t)) = nms boxes t
  rw [sortDet_of_sorted (nms_sorted boxes t)]
  exact greedy_of_pairwise t _ (nms_pairwise boxes t)

/-- Claim C3: for every finite list of candidate boxes and every IoU
threshold, the output of the greedy `nms` contains no pair of boxes whose
IoU exceeds the threshold (stated for both orders of each pair, noting
`iou` is symmetric), and running `nms` again on its own output with the
same threshold returns the same list. -/
theorem C3_nms_no_overlap_and_idempotent (boxes : List Det) (t : ℚ) :
    ((nms boxes t).Pairwise fun a b => iou a b ≤ t ∧ iou b a ≤ t) ∧
      nms (nms boxes t) t = nms boxes t := by
  refine ⟨(nms_pairwise boxes t).imp fun h => ⟨h, ?_⟩, nms_idem boxes t⟩
  rw [iou_comm]
  exact h

theorem decodeSlot_threshold (data : ℕ → ℚ) (L : Layout) (width height : ℚ)
    {t1 t2 : ℚ} (hle : t1 ≤ t2) (i : ℕ) :
    decodeSlot data L width height t2 i =
      (decodeSlot data L width height t1 i).bind
        fun d => if t2 < d.confidence then some d else none := by
  unfold decodeSlot
  by_cases h2 : maxScore data L (L.numFeatures - 4) i > t2
  · rw [if_pos h2, if_pos (lt_of_le_of_lt hle h2)]
    simp [Option.bind, h2]
  · rw [if_neg h2]
    by_cases h1 : maxScore data L (L.numFeatures - 4) i > t1
    · rw [if_pos h1]
      simp [Option.bind, h2]
    · rw [if_neg h1]
      rfl

theorem filterMap_bind_filter {α β : Type} (f : α → Option β) (p : β → Prop)
    [DecidablePred p] (l : List α) :
    (l.filterMap fun a => (f a).bind fun d => if p d then some d else none) =
      (l.filterMap f).filter fun d => decide (p d) := by
  induction l with
  | nil => rfl
  | cons a l ih =>
    cases hfa : f a with
    | none => simp [List.filterMap_cons, hfa, ih]
    | some d =>
      by_cases hp : p d
      · simp [List.filterMap_cons, hfa, hp, ih]
      · simp [List.filterMap_cons, hfa, hp, ih]

theorem candidates_threshold (data : ℕ → ℚ) (L : Layout) (width height : ℚ)
    {t1 t2 : ℚ} (hle : t1 ≤ t2) :
    candidates data L width height t2 =
      (candidates data L width height t1).filter
        fun d => decide (t2 < d.confidence) := by
  unfold candidates
  rw [← filterMap_bind_filter]
  congr 1
  funext i
  exact decodeSlot_threshold data L width height hle i

theorem orderedInsert_eq_cons {α : Type} (r : α → α → Prop) [DecidableRel r]
    (x : α) (m : List α) (h : ∀ z ∈ m, r x z) :
    List.orderedInsert r x m = x :: m := by
  cases m with
  | nil => rfl
  | cons z zs => exact List.orderedInsert_of_le r zs (h z (by simp))

theorem filter_orderedInsert (p : Det → Bool) (x : Det) :
    ∀ l : List Det, List.Sorted confGe l →
      (List.orderedInsert confGe x l).filter p =
        if p x then List.orderedInsert confGe x (l.filter p) else l.filter p := by
  intro l
  induction l with
  | nil =>
    intro _
    simp only [List.orderedInsert, List.filter]
    cases hpx : p x <;> simp [hpx]
  | cons y ys ih =>
    intro hs
    have hy : ∀ z ∈ ys, confGe y z := (List.sorted_cons.mp hs).1
    have hys : List.Sorted confGe ys := (List.sorted_cons.mp hs).2
    by_cases hxy : confGe x y
    · rw [List.orderedInsert_of_le confGe ys hxy]
      cases hpx : p x with
      | true =>
        have hall : ∀ z ∈ (y :: ys).filter p, confGe x z := by
          intro z hz
          have hz2 : z ∈ y :: ys := List.mem_of_mem_filter hz
          rcases List.mem_cons.mp hz2 with h | h
          · exact h ▸ hxy
          · exact le_trans (hy z h) hxy
        rw [orderedInsert_eq_cons confGe x _ hall]
        simp [hpx]
      | false => simp [hpx]
    · have hins : List.orderedInsert confGe x (y :: ys) =
          y :: List.orderedInsert confGe x ys := by
        rw [List.orderedInsert, if_neg hxy]
      rw [hins]
      cases hpy : p y with
      | true =>
        rw [List.filter_cons_of_pos hpy, ih hys, List.filter_cons_of_pos hpy]
        cases hpx : p x with
        | true =>
          rw [if_pos rfl, if_pos rfl, List.orderedInsert, if_neg hxy]
        | false =>
          simp
      | false =>
        rw [List.filter_cons_of_neg (by simp [hpy]), ih hys,
          List.filter_cons_of_neg (by simp [hpy])]

theorem sortDet_filter (p : Det → Bool) (l : List Det) :
    sortDet (l.filter p) = (sortDet l).filter p := by
  rw [sortDet_eq, sortDet_eq]
  induction l with
  | nil => rfl
  | cons x l ih =>
    rw [List.insertionSort,
      filter_orderedInsert p x _ (List.sorted_insertionSort confGe l)]
    cases hpx : p x with
    | true =>
      rw [List.filter_cons_of_pos hpx, List.insertionSort, ih, if_pos rfl]
    | false =>
      rw [List.filter_cons_of_neg (by simp [hpx]), ih, if_neg (by simp)]

theorem isPre_cons {α : Type} (a : α) {l1 l2 : List α}
    (h : List.IsPrefix l1 l2) : List.IsPrefix (a :: l1) (a :: l2) := by
  obtain ⟨c, hc⟩ := h
  exact ⟨c, by simp [hc]⟩

theorem filter_conf_isPre (c : ℚ) :
    ∀ l : List Det, List.Sorted confGe l →
      List.IsPrefix (l.filter fun d => decide (c < d.confidence)) l := by
  intro l
  induction l with
  | nil =>
    intro _
    simp
  | cons x xs ih =>
    intro hs
    have hx2 : ∀ z ∈ xs, confGe x z := (List.sorted_cons.mp hs).1
    by_cases hx : c < x.confidence
    · rw [List.filter_cons_of_pos (by simp [hx])]
      exact isPre_cons x (ih (List.sorted_cons.mp hs).2)
    · rw [List.filter_cons_of_neg (by simp [hx])]
      have hnil : (xs.filter fun d => decide (c < d.confidence)) = [] := by
        rw [List.filter_eq_nil_iff]
        intro z hz
        have h1 : z.confidence ≤ x.confidence := hx2 z hz
        have h2 : x.confidence ≤ c := le_of_not_lt hx
        simp only [decide_eq_true_eq]
        exact not_lt.mpr (le_trans h1 h2)
      rw [hnil]
      exact List.nil_prefix

theorem greedy_isPre_append (t : ℚ) (A B : List Det) :
    List.IsPrefix (greedy t A) (greedy t (A ++ B)) := by
  suffices h : ∀ n (A B : List Det), A.length = n →
      List.IsPrefix (greedy t A) (greedy t (A ++ B)) from h A.length A B rfl
  intro n
  induction n using Nat.strong_induction_on with
  | _ n ih =>
    intro A B hn
    match A with
    | [] =>
      rw [greedy_nil, List.nil_append]
      exact List.nil_prefix
    | x :: A2 =>
      rw [greedy_cons, List.cons_append, greedy_cons, List.filter_append]
      refine isPre_cons x ?_
      have hlen : (A2.filter fun y => decide (iou x y ≤ t)).length < n := by
        have := List.length_filter_le (fun y => decide (iou x y ≤ t)) A2
        simp only [List.length_cons] at hn
        omega
      exact ih _ hlen _ _ rfl

/-- Claim C4: for every RawOutput and every pair of confidence thresholds
t1 < t2, the detection list produced by the full decode pipeline
(`processYOLOv8Output`, thresholding followed by NMS) at threshold t2 is
contained in the list produced at threshold t1 on the identical output
buffer. -/
theorem C4_threshold_monotone (data : ℕ → ℚ) (d1 d2 : ℕ)
    (width height t1 t2 : ℚ) (hlt : t1 < t2) (d : Det)
    (hd : d ∈ processYOLOv8Output data d1 d2 width height t2) :
    d ∈ processYOLOv8Output data d1 d2 width height t1 := by
  unfold processYOLOv8Output nms at hd ⊢
  rw [candidates_threshold data (layoutOf d1 d2) width height (le_of_lt hlt),
    sortDet_filter] at hd
  obtain ⟨C, hC⟩ :=
    filter_conf_isPre t2 (sortDet (candidates data (layoutOf d1 d2) width height t1))
      (sortDet_sorted _)
  have hpre := greedy_isPre_append (45 / 100)
    ((sortDet (candidates data (layoutOf d1 d2) width height t1)).filter
      fun e => decide (t2 < e.confidence)) C
  rw [hC] at hpre
  exact hpre.sublist.subset hd

theorem mem_candidates_conf {data : ℕ → ℚ} {L : Layout} {width height t : ℚ}
    {d : Det} (hd : d ∈ candidates data L width height t) : t < d.confidence := by
  unfold candidates at hd
  rw [List.mem_filterMap] at hd
  obtain ⟨i, _, hi⟩ := hd
  unfold decodeSlot at hi
  by_cases hs : maxScore data L (L.numFeatures - 4) i > t
  · rw [if_pos hs] at hi
    simp only [Option.some.injEq] at hi
    subst hi
    exact hs
  · rw [if_neg hs] at hi
    exact absurd hi (by simp)

theorem mem_nms_of_mem {boxes : List Det} {t : ℚ} {d : Det}
    (hd : d ∈ nms boxes t) : d ∈ boxes := by
  unfold nms at hd
  have h1 := (greedy_sublist t (sortDet boxes)).subset hd
  rw [sortDet_eq] at h1
  exact (List.perm_insertionSort confGe boxes).subset h1

/-- Claim C5, amended: every Detection emitted by the decode pipeline
(`processYOLOv8Output`, for any RawOutput, frame dimensions and configured
threshold) has confidence strictly greater than the configured threshold.
The clamping half of the original claim fails on the code: the pipeline
performs no clamping of x, y, w, h to the frame bounds
(see the counterexample theorem). -/
theorem C5_confidence_exceeds_threshold (data : ℕ → ℚ) (d1 d2 : ℕ)
    (width height t : ℚ) (d : Det)
    (hd : d ∈ processYOLOv8Output data d1 d2 width height t) :
    t < d.confidence := by
  unfold processYOLOv8Output at hd
  exact mem_candidates_conf (mem_nms_of_mem hd)

theorem filterMap_range_eq_single {β : Type} (f : ℕ → Option β) (n i0 : ℕ)
    (d : β) (hi0 : i0 < n) (hf : f i0 = some d)
    (hnone : ∀ i, i < n → i ≠ i0 → f i = none) :
    (List.range n).filterMap f = [d] := by
  induction n with
  | zero => omega
  | succ n ih =>
    rw [List.range_succ, List.filterMap_append]
    by_cases hn : i0 = n
    · subst hn
      have hnil : (List.range i0).filterMap f = [] := by
        rw [List.filterMap_eq_nil_iff]
        intro i hi
        rw [List.mem_range] at hi
        exact hnone i (by omega) (by omega)
      rw [hnil]
      simp [List.filterMap_cons, hf]
    · have hlast : f n = none := hnone n (by omega) (by omega)
      rw [ih (by omega) (fun i hi hne => hnone i (by omega) hne)]
      simp [List.filterMap_cons, hlast]

theorem sortDet_single (d : Det) : sortDet [d] = [d] := rfl

theorem nms_single (d : Det) (t : ℚ) : nms [d] t = [d] := by
  unfold nms
  rw [sortDet_single, greedy_cons]
  simp [greedy_nil]

theorem pipe_eq_single (data : ℕ → ℚ) (d1 d2 : ℕ) (width height t : ℚ)
    (i0 : ℕ) (d : Det) (hi0 : i0 < (layoutOf d1 d2).numDetections)
    (hf : decodeSlot data (layoutOf d1 d2) width height t i0 = some d)
    (hnone : ∀ i, i < (layoutOf d1 d2).numDetections → i ≠ i0 →
      decodeSlot data (layoutOf d1 d2) width height t i = none) :
    processYOLOv8Output data d1 d2 width height t = [d] := by
  unfold processYOLOv8Output candidates
  rw [filterMap_range_eq_single _ _ i0 d hi0 hf hnone, nms_single]

theorem range_one_eq : List.range 1 = [0] := by
  rw [List.range_succ, List.range_zero, List.nil_append]


theorem c2_decode0 :
    decodeSlot c2Data (layoutOf 5 8400) 1280 720 (1 / 4) 0 = some c2Det := by
  norm_num [decodeSlot, layoutOf, maxScore, featAt, c2Data, c2Det,
    YOLO_INPUT_SIZE, range_one_eq, List.foldl_cons, List.foldl_nil]

theorem c2_decode_ne (i : ℕ) (h0 : i ≠ 0) :
    decodeSlot c2Data (layoutOf 5 8400) 1280 720 (1 / 4) i = none := by
  have hd : c2Data (8400 * 4 + i) = 0 := by
    unfold c2Data
    rw [if_neg (by omega), if_neg (by omega), if_neg (by omega),
      if_neg (by omega), if_neg (by omega)]
  norm_num [decodeSlot, layoutOf, maxScore, featAt, range_one_eq,
    List.foldl_cons, List.foldl_nil, hd]

/-- Claim C2: on a RawOutput with dims [1, 5, 8400] in which exactly one
slot has class score 0.9 with model-space box cx 320, cy 320, w 100, h 60
and every other slot has score 0 (at or below the threshold 1/4), the
decoder with frame 1280 by 720 and model input size 640 returns exactly one
Detection, at x 540, y 326.25, w 200, h 67.5, confidence 0.9. -/
theorem C2_single_slot_scenario :
    processYOLOv8Output c2Data 5 8400 1280 720 (1 / 4) = [c2Det] := by
  refine pipe_eq_single c2Data 5 8400 1280 720 (1 / 4) 0 c2Det ?_ c2_decode0
    fun i _ hne => c2_decode_ne i hne
  norm_num [layoutOf]

/-- Claim C1: for dims whose trailing sizes differ, the decoder selects the
layout at runtime: the larger of dims[1], dims[2] becomes numDetections,
the smaller numFeatures, and feature f of slot i is read at index
i * numFeatures + f when dims[1] > dims[2] and at numDetections * f + i
otherwise. -/
theorem C1_runtime_orientation (d1 d2 : ℕ) (data : ℕ → ℚ) (i f : ℕ)
    (hne : d1 ≠ d2) :
    (layoutOf d1 d2).numDetections = max d1 d2 ∧
      (layoutOf d1 d2).numFeatures = min d1 d2 ∧
      featAt data (layoutOf d1 d2) i f =
        if d1 > d2 then data (i * min d1 d2 + f)
        else data (max d1 d2 * f + i) := by
  unfold layoutOf featAt
  by_cases h : d1 > d2
  · simp [h, Nat.max_eq_left h.le, Nat.min_eq_right h.le]
  · have h2 : d1 < d2 := by omega
    simp [h, Nat.max_eq_right h2.le, Nat.min_eq_left h2.le]

/-- Witness for C1 at dims [1, 5, 8400], slot 2, feature 3, on the buffer
holding its own index. -/
theorem C1_runtime_orientation_witness :
    (5 : ℕ) ≠ 8400 ∧
      ((layoutOf 5 8400).numDetections = max 5 8400 ∧
        (layoutOf 5 8400).numFeatures = min 5 8400 ∧
        featAt (fun n => (n : ℚ)) (layoutOf 5 8400) 2 3 =
          if 5 > 8400 then ((2 * min 5 8400 + 3 : ℕ) : ℚ)
          else ((max 5 8400 * 3 + 2 : ℕ) : ℚ)) :=
  ⟨by norm_num, C1_runtime_orientation 5 8400 (fun n => (n : ℚ)) 2 3 (by norm_num)⟩


theorem negData_decode0 (t : ℚ) (ht : t < 9 / 10) :
    decodeSlot negData (layoutOf 5 6) 640 640 t 0 = some negDet := by
  norm_num [decodeSlot, layoutOf, maxScore, featAt, negData, negDet,
    YOLO_INPUT_SIZE, range_one_eq, List.foldl_cons, List.foldl_nil, ht]

theorem negData_decode_ne (t : ℚ) (ht : 0 ≤ t) (i : ℕ) (h0 : i ≠ 0) :
    decodeSlot negData (layoutOf 5 6) 640 640 t i = none := by
  have hd : negData (6 * 4 + i) = 0 := by
    unfold negData
    rw [if_neg (by omega), if_neg (by omega), if_neg (by omega)]
  have hms : maxScore negData (layoutOf 5 6) ((layoutOf 5 6).numFeatures - 4) i = 0 := by
    norm_num [maxScore, featAt, layoutOf, range_one_eq, List.foldl_cons,
      List.foldl_nil, hd]
  unfold decodeSlot
  rw [hms, if_neg (not_lt.mpr ht)]

theorem negData_pipe (t : ℚ) (ht0 : 0 ≤ t) (ht : t < 9 / 10) :
    processYOLOv8Output negData 5 6 640 640 t = [negDet] := by
  refine pipe_eq_single negData 5 6 640 640 t 0 negDet ?_ (negData_decode0 t ht)
    fun i _ hne => negData_decode_ne t ht0 i hne
  norm_num [layoutOf]

/-- Counterexample to claim C5 as stated: on `negData` (slot with cx 0,
w 100, score 0.9) with frame 640 by 640 and threshold 1/4, the pipeline
emits a detection whose x coordinate is -50, outside [0, width]; the code
performs no clamping to frame bounds. -/
theorem C5_counterexample_unclamped :
    processYOLOv8Output negData 5 6 640 640 (1 / 4) = [negDet] ∧
      negDet.x < 0 := by
  refine ⟨negData_pipe (1 / 4) (by norm_num) (by norm_num), ?_⟩
  norm_num [negDet]

/-- Witness for the amended C5: the detection emitted from `negData` at
threshold 1/4 has confidence exceeding 1/4. -/
theorem C5_confidence_exceeds_threshold_witness :
    (1 / 4 : ℚ) < negDet.confidence :=
  C5_confidence_exceeds_threshold negData 5 6 640 640 (1 / 4) negDet
    (by rw [negData_pipe (1 / 4) (by norm_num) (by norm_num)]; simp)

/-- Witness for C4: with thresholds 1/4 < 1/2, the detection present at
threshold 1/2 on `negData` is also present at threshold 1/4. -/
theorem C4_threshold_monotone_witness :
    (1 / 4 : ℚ) < 1 / 2 ∧
      negDet ∈ processYOLOv8Output negData 5 6 640 640 (1 / 4) :=
  ⟨by norm_num,
    C4_threshold_monotone negData 5 6 640 640 (1 / 4) (1 / 2) (by norm_num) negDet
      (by rw [negData_pipe (1 / 2) (by norm_num) (by norm_num)]; simp)⟩

/-- Claim C8: for every detection box, padding and frame size, the
`decodeROI` crop rectangle is clamped in both origin and extent so that it
lies within the source frame: bx is nonnegative, by is nonnegative,
bx + bw is at most the frame width and by + bh at most the frame height. -/
theorem C8_crop_within_frame (x y w h padding videoWidth videoHeight : ℚ) :
    0 ≤ (decodeROI x y w h padding videoWidth videoHeight).bx ∧
      0 ≤ (decodeROI x y w h padding videoWidth videoHeight).by0 ∧
      (decodeROI x y w h padding videoWidth videoHeight).bx +
          (decodeROI x y w h padding videoWidth videoHeight).bw ≤ videoWidth ∧
      (decodeROI x y w h padding videoWidth videoHeight).by0 +
          (decodeROI x y w h padding videoWidth videoHeight).bh ≤ videoHeight := by
  unfold decodeROI
  refine ⟨le_max_left 0 (x - padding), le_max_left 0 (y - padding), ?_, ?_⟩
  · have hm := min_le_left (videoWidth - max 0 (x - padding)) (w + padding * 2)
    linarith
  · have hm := min_le_left (videoHeight - max 0 (y - padding)) (h + padding * 2)
    linarith

/-- Claim C9, amended: `iou` is symmetric for all boxes; a box of positive
width and height has iou 1 with itself; two boxes of positive width and
height whose intersection is empty have iou 0.  For a degenerate box
(zero width or height) the self-IoU is not 1: the union area is 0 and the
division degenerates (0 in this model, NaN in JavaScript), see the
counterexample. -/
theorem C9_iou_properties (a b : Det) :
    iou a b = iou b a ∧
      (0 < a.w → 0 < a.h → iou a a = 1) ∧
      (0 < a.w → 0 < a.h → 0 < b.w → 0 < b.h → disjointBoxes a b →
        iou a b = 0) := by
  refine ⟨iou_comm a b, ?_, ?_⟩
  · intro hw hh
    unfold iou
    simp only [min_self, max_self]
    rw [show a.x + a.w - a.x = a.w from by ring,
      show a.y + a.h - a.y = a.h from by ring,
      max_eq_right hw.le, max_eq_right hh.le,
      show a.w * a.h + a.w * a.h - a.w * a.h = a.w * a.h from by ring]
    exact div_self (ne_of_gt (mul_pos hw hh))
  · intro _ _ _ _ hdisj
    unfold iou
    have hinter : max 0 (min (a.x + a.w) (b.x + b.w) - max a.x b.x) *
        max 0 (min (a.y + a.h) (b.y + b.h) - max a.y b.y) = 0 := by
      rcases hdisj with hx | hy
      · rw [show max 0 (min (a.x + a.w) (b.x + b.w) - max a.x b.x) = 0 from
          max_eq_left (by linarith), zero_mul]
      · rw [show max 0 (min (a.y + a.h) (b.y + b.h) - max a.y b.y) = 0 from
          max_eq_left (by linarith), mul_zero]
    rw [hinter, zero_div]

/-- Counterexample to claim C9 as stated ("for every axis-aligned box b,
iou(b, b) = 1.0"): the degenerate box with zero width and height has
self-IoU 0 in this model (0/0 division; NaN in JavaScript), not 1. -/
theorem C9_counterexample_degenerate :
    iou ⟨0, 0, 0, 0, 0⟩ ⟨0, 0, 0, 0, 0⟩ ≠ 1 := by
  norm_num [iou]

/-- Witness for C9 at the box (0, 0, 2, 3) and the disjoint box
(10, 10, 1, 1). -/
theorem C9_iou_properties_witness :
    iou ⟨0, 0, 2, 3, 1⟩ ⟨10, 10, 1, 1, 1⟩ = iou ⟨10, 10, 1, 1, 1⟩ ⟨0, 0, 2, 3, 1⟩ ∧
      iou ⟨0, 0, 2, 3, 1⟩ ⟨0, 0, 2, 3, 1⟩ = 1 ∧
      iou ⟨0, 0, 2, 3, 1⟩ ⟨10, 10, 1, 1, 1⟩ = 0 :=
  ⟨(C9_iou_properties ⟨0, 0, 2, 3, 1⟩ ⟨10, 10, 1, 1, 1⟩).1,
    (C9_iou_properties ⟨0, 0, 2, 3, 1⟩ ⟨10, 10, 1, 1, 1⟩).2.1 (by norm_num) (by norm_num),
    (C9_iou_properties ⟨0, 0, 2, 3, 1⟩ ⟨10, 10, 1, 1, 1⟩).2.2 (by norm_num)
      (by norm_num) (by norm_num) (by norm_num)
      (by norm_num [disjointBoxes])⟩

/-- Claim C7, amended: `handleSuccess` accepts a payload iff it differs
from the cached payload or at least 3000 ms have elapsed since that
payload was cached (the code rejects exactly when the payload is identical
and strictly less than 3000 ms have elapsed, so at exactly 3000 ms it
accepts — the original "exceeds" boundary is refuted by the
counterexample); the cache is updated only on accept; and the spec
scenario holds: "P" accepted at t 0 from the initial state, rejected at
t 1000, accepted again at t 3100. -/
theorem C7_dedup_amended :
    (∀ (code : String) (now : ℤ) (s : ScanState),
        ((handleSuccess code now s).1 = true ↔
          (code ≠ s.code ∨ 3000 ≤ now - s.time)) ∧
        (handleSuccess code now s).2 =
          if (handleSuccess code now s).1 then ⟨code, now⟩ else s) ∧
      handleSuccess "P" 0 ⟨"", 0⟩ = (true, ⟨"P", 0⟩) ∧
      handleSuccess "P" 1000 ⟨"P", 0⟩ = (false, ⟨"P", 0⟩) ∧
      handleSuccess "P" 3100 ⟨"P", 0⟩ = (true, ⟨"P", 3100⟩) := by
  refine ⟨fun code now s => ?_, ?_, ?_, ?_⟩
  · unfold handleSuccess
    by_cases h : code = s.code ∧ now - s.time < 3000
    · rw [if_pos h]
      refine ⟨?_, by simp⟩
      simp only [Bool.false_eq_true, false_iff, not_or, not_le, ne_eq, not_not]
      exact ⟨h.1, h.2⟩
    · rw [if_neg h]
      refine ⟨?_, by simp⟩
      simp only [true_iff]
      rcases not_and_or.mp h with hc | ht
      · exact Or.inl hc
      · exact Or.inr (not_lt.mp ht)
  · unfold handleSuccess
    rw [if_neg (by simp)]
  · unfold handleSuccess
    rw [if_pos (by norm_num)]
  · unfold handleSuccess
    rw [if_neg (by norm_num)]

/-- Counterexample to claim C7 as stated: the cached payload "P" accepted
at t 0 and re-seen at exactly t 3000 is accepted by the code, although the
elapsed time does not exceed the 3000 ms window (the claim would reject
it). -/
theorem C7_counterexample_boundary :
    (handleSuccess "P" 3000 ⟨"P", 0⟩).1 = true ∧
      ¬("P" ≠ "P" ∨ (3000 : ℤ) - 0 > 3000) := by
  constructor
  · unfold handleSuccess
    rw [if_neg (by norm_num)]
  · norm_num

/-- Claim C6, amended: the detection loop of `startDetectionLoop` submits
an inference request on every tick on which the video has enough data,
with no check of any outstanding inference: after n consecutive ready
ticks with no response, n requests are outstanding.  The back-pressure
rule of the original claim does not exist in the code, see the
counterexample. -/
theorem C6_no_backpressure :
    (∀ s : ℕ, loopStep s (LoopEvent.tick true) = s + 1) ∧
      ∀ n : ℕ, outstandingAfter (List.replicate n (LoopEvent.tick true)) = n := by
  constructor
  · intro s
    rfl
  · have hgen : ∀ (n s : ℕ),
        List.foldl loopStep s (List.replicate n (LoopEvent.tick true)) = s + n := by
      intro n
      induction n with
      | zero => intro s; simp
      | succ n ih =>
        intro s
        rw [List.replicate_succ, List.foldl_cons, ih]
        simp [loopStep]
        omega
    intro n
    unfold outstandingAfter
    rw [hgen n 0]
    omega

/-- Counterexample to claim C6 as stated: two consecutive ready ticks with
no intervening response leave two inference requests outstanding, so the
sampler does submit while a previous inference is outstanding. -/
theorem C6_counterexample_two_outstanding :
    outstandingAfter [LoopEvent.tick true, LoopEvent.tick true] = 2 ∧
      ¬(2 ≤ 1) := by
  constructor
  · rfl
  · norm_num

/-- Claim C10: when no model session has been loaded, an INFER message
(first worker variant) or a FRAME message (second worker variant) makes
the handler return without running inference and without posting any
message, whatever the outcome of a run would have been. -/
theorem C10_no_session_silent (runOk : Bool) :
    onInferMsg false runOk = ⟨false, []⟩ ∧
      onFrameMsg false runOk = ⟨false, []⟩ :=
  ⟨rfl, rfl⟩
